import Mathlib

/-!
# nicety: rule loading, matching and delayed application

A shallow embedding of `main.go`.  Go strings are byte sequences and are
modelled as lists of byte values; Go `int`/`uint` are the 64-bit machine
integers of the amd64 build and are modelled as `Int`/`Nat` with explicit
wrap-around where the source converts or multiplies.  File-system reads,
JSON decoding and the outcome of external commands are inputs of the model.
-/

set_option autoImplicit false

namespace Nicety

/-! ## Strings -/

/-- One byte of a Go string, as its value `0..255`. -/
abbrev Byte := Nat

/-- A Go `string`: an immutable sequence of bytes. -/
abbrev GoString := List Byte

/-- The bytes of an ASCII literal. -/
def ascii (s : String) : GoString := s.data.map Char.toNat

/-- Byte `/`. -/
def slash : Byte := 47
/-- Byte `.`. -/
def dot : Byte := 46
/-- Byte `,`. -/
def comma : Byte := 44
/-- Byte `-`. -/
def minus : Byte := 45
/-- Byte `+`. -/
def plus : Byte := 43

/-- ASCII decimal digit test (`'0' <= b <= '9'`). -/
def isDigit (b : Byte) : Bool := decide (48 ≤ b) && decide (b ≤ 57)

/-! ## Runtime failures -/

/-- The Go runtime panics that the modelled code can raise. -/
inductive Panic where
  | indexOutOfRange
  | sliceBounds
  deriving DecidableEq, Repr

deriving instance DecidableEq for Except

/-! ## Rules -/

/-- The `Rule` struct: every field is a pointer in the source, so `none`
is the nil pointer (key absent or `null` in the rule file). -/
structure Rule where
  Name : Option GoString
  CPUAffinity : Option GoString
  Nice : Option Int
  IOClass : Option GoString
  IOPriority : Option Int
  SchedPolicy : Option GoString
  SchedPriority : Option Int
  Delay : Option Int
  deriving DecidableEq, Repr

/-- The error returned by `loadRule`, by the check that produced it
(the message text of the source is not kept). -/
inductive RuleError where
  | read
  | nameRequired
  | cpuAffinity
  | nice
  | ioClass
  | ioPriority
  | schedPolicy
  | schedPriority
  deriving DecidableEq, Repr

/-- The closure `within` of `loadRule`: `!(i < min || i > max)`. -/
def within (i min max : Int) : Bool := !(decide (i < min) || decide (i > max))

/-! ### `strings.Replace`, `strings.Split`, `strconv.Atoi` -/

/-- `strings.Replace(s, old, new, -1)` for one-byte `old` and `new`:
every occurrence of `old` becomes `new`. -/
def stringsReplace (s : GoString) (old new : Byte) : GoString :=
  s.map (fun b => if b = old then new else b)

/-- Splits at every byte satisfying `p`; the separators are dropped and
empty pieces are kept, so the result always has at least one piece. -/
def splitOnP (p : Byte → Bool) : GoString → List GoString
  | [] => [[]]
  | b :: bs =>
    if p b then [] :: splitOnP p bs
    else
      match splitOnP p bs with
      | [] => [[b]]
      | t :: ts => (b :: t) :: ts

/-- `strings.Split(s, sep)` for a one-byte separator. -/
def stringsSplit (s : GoString) (sep : Byte) : List GoString :=
  splitOnP (fun b => decide (b = sep)) s

/-- Value of a run of decimal digits, most significant first; `none` when
a byte is not a digit (the syntax error of `strconv`). -/
def parseDigits : GoString → Nat → Option Nat
  | [], acc => some acc
  | b :: bs, acc => if isDigit b then parseDigits bs (acc * 10 + (b - 48)) else none

/-- `strconv.Atoi` on a 64-bit platform: an optional sign, then one or
more decimal digits, and the value must fit in `int64`; `none` stands for
a non-nil error (syntax or range). -/
def atoi (s : GoString) : Option Int :=
  match s with
  | [] => none
  | b :: bs =>
    if b = minus then
      match bs with
      | [] => none
      | _ => match parseDigits bs 0 with
        | none => none
        | some n => if n ≤ 2 ^ 63 then some (-(n : Int)) else none
    else
      let ds := if b = plus then bs else b :: bs
      match ds with
      | [] => none
      | _ => match parseDigits ds 0 with
        | none => none
        | some n => if n < 2 ^ 63 then some (n : Int) else none

/-- The loop of `loadRule` over the CPU list: `false` as soon as a token
fails `Atoi` or is `>= numCPU`. -/
def cpuListOk (numCPU : Nat) : List GoString → Bool
  | [] => true
  | cpu :: rest =>
    match atoi cpu with
    | none => false
    | some i => if i ≥ (numCPU : Int) then false else cpuListOk numCPU rest

/-- The `cpu_affinity` check of `loadRule` (lines 78-87). -/
def cpuAffinityOk (numCPU : Nat) (aff : GoString) : Bool :=
  cpuListOk numCPU (stringsSplit (stringsReplace aff minus comma) comma)

/-- The `io_class` switch of `loadRule`. -/
def ioClassOk (c : GoString) : Bool :=
  decide (c = ascii "none") || decide (c = ascii "realtime") ||
    decide (c = ascii "best-effort") || decide (c = ascii "idle")

/-- The `sched_policy` switch of `loadRule`. -/
def schedPolicyOk (p : GoString) : Bool :=
  decide (p = ascii "batch") || decide (p = ascii "deadline") ||
    decide (p = ascii "fifo") || decide (p = ascii "idle") ||
    decide (p = ascii "other") || decide (p = ascii "rr")

/-- A guarded check of `loadRule`, `if p != nil { if !ok(*p) { return err } }`:
whether the error return is taken. -/
def failsCheck {α : Type} (p : Option α) (ok : α → Bool) : Bool :=
  match p with
  | some a => !ok a
  | none => false

/-- The checks of `loadRule` that follow a successful read and decode. -/
def validateRule (numCPU : Nat) (r : Rule) : Except RuleError Rule :=
  if r.Name = none then .error .nameRequired
  else if failsCheck r.CPUAffinity (cpuAffinityOk numCPU) then .error .cpuAffinity
  else if failsCheck r.Nice (fun n => within n (-20) 19) then .error .nice
  else if failsCheck r.IOClass ioClassOk then .error .ioClass
  else if failsCheck r.IOPriority (fun p => within p 0 7) then .error .ioPriority
  else if failsCheck r.SchedPolicy schedPolicyOk then .error .schedPolicy
  else if failsCheck r.SchedPriority (fun p => within p 1 99) then .error .schedPriority
  else .ok r

/-- `loadRule`: `file` is what `ioutil.ReadFile` followed by
`json.Unmarshal` gives for the path, `none` when either fails. -/
def loadRule (numCPU : Nat) (file : Option Rule) : Except RuleError Rule :=
  match file with
  | none => .error .read
  | some r => validateRule numCPU r

/-! ## The rule set -/

/-- The map type `Rules` (`map[string]Rule`) as an association list that
holds each key at most once; the order of the list plays no part, as Go
fixes no iteration order for a map. -/
abbrev Rules := List (GoString × Rule)

/-- The map assignment `rules[k] = r`: an entry under `k` is replaced. -/
def Rules.set (rs : Rules) (k : GoString) (r : Rule) : Rules :=
  (k, r) :: rs.filter (fun e => decide (e.1 ≠ k))

/-- The method `Rules.match`: the rule stored under the name equal to
`s`; `none` is the `false` result. -/
def Rules.match (rs : Rules) (s : GoString) : Option Rule :=
  match rs with
  | [] => none
  | (name, r) :: rest => if name = s then some r else Rules.match rest s

/-- The scan of `filepath.Ext` from the end of the path: `acc` holds the
bytes already passed, in path order. -/
def extScan : List Byte → GoString → GoString
  | [], _ => []
  | b :: bs, acc =>
    if b = slash then []
    else if b = dot then b :: acc
    else extScan bs (b :: acc)

/-- `filepath.Ext`: the suffix starting at the last dot of the last path
element, empty when there is none. -/
def filepathExt (p : GoString) : GoString := extScan p.reverse []

/-- One entry of the rules directory as `ioutil.ReadDir` lists it, with
what reading and decoding that file gives (`none` when it fails). -/
structure DirEntry where
  name : GoString
  file : Option Rule
  deriving DecidableEq, Repr

/-- The body of the loop of `loadRules` for one directory entry. -/
def loadRulesStep (numCPU : Nat) (rules : Rules) (e : DirEntry) : Rules :=
  if filepathExt e.name ≠ ascii ".rules" then rules
  else
    match loadRule numCPU e.file with
    | .error _ => rules
    | .ok rule =>
      match rule.Name with
      | some n => rules.set n rule
      | none => rules

/-- `loadRules`: `dir` is the result of `ioutil.ReadDir` (`none` on
error); the result is `none` for the nil map. -/
def loadRules (numCPU : Nat) (dir : Option (List DirEntry)) : Option Rules :=
  match dir with
  | none => none
  | some files =>
    let rules := files.foldl (loadRulesStep numCPU) []
    if rules.length > 0 then some rules else none

/-! ## Paths and notification lines -/

/-- Drops the trailing slashes of a path given in reverse. -/
def dropSlashes : List Byte → List Byte
  | [] => []
  | b :: bs => if b = slash then dropSlashes bs else b :: bs

/-- The bytes before the first slash (of a reversed path: the last element,
reversed). -/
def untilSlash : List Byte → List Byte
  | [] => []
  | b :: bs => if b = slash then [] else b :: untilSlash bs

/-- `path.Base`: the last element of a slash-separated path, after removing
trailing slashes; `.` for the empty path and `/` for a path of slashes. -/
def pathBase (p : GoString) : GoString :=
  if p = [] then [dot]
  else
    let last := (untilSlash (dropSlashes p.reverse)).reverse
    if last = [] then [slash] else last

/-- `filepath.Base` on Unix: the separator is `/` and there is no volume
name, so the function computes what `path.Base` computes. -/
def filepathBase (p : GoString) : GoString :=
  if p = [] then [dot]
  else
    let last := (untilSlash (dropSlashes p.reverse)).reverse
    if last = [] then [slash] else last

/-- Width in bytes of the white-space rune encoded at the head of the
input, `0` when the input does not start with white space.  The runes are
those of `unicode.IsSpace`: the six ASCII ones, U+0085, U+00A0, U+1680,
U+2000..U+200A, U+2028, U+2029, U+202F, U+205F and U+3000 in UTF-8. -/
def spaceWidth : List Byte → Nat
  | 9 :: _ => 1
  | 10 :: _ => 1
  | 11 :: _ => 1
  | 12 :: _ => 1
  | 13 :: _ => 1
  | 32 :: _ => 1
  | 0xC2 :: 0x85 :: _ => 2
  | 0xC2 :: 0xA0 :: _ => 2
  | 0xE1 :: 0x9A :: 0x80 :: _ => 3
  | 0xE2 :: 0x80 :: b :: _ =>
    if (0x80 ≤ b ∧ b ≤ 0x8A) ∨ b = 0xA8 ∨ b = 0xA9 ∨ b = 0xAF then 3 else 0
  | 0xE2 :: 0x81 :: 0x9F :: _ => 3
  | 0xE3 :: 0x80 :: 0x80 :: _ => 3
  | _ => 0

/-- The scan of `strings.Fields`: `cur` is the field being read, reversed,
and `skip` counts the bytes of a white-space rune still to be passed. -/
def fieldsScan : List Byte → List Byte → Nat → List GoString
  | [], cur, _ => if cur = [] then [] else [cur.reverse]
  | _ :: bs, cur, skip + 1 => fieldsScan bs cur skip
  | b :: bs, cur, 0 =>
    match spaceWidth (b :: bs) with
    | 0 => fieldsScan bs (b :: cur) 0
    | w + 1 => if cur = [] then fieldsScan bs [] w else cur.reverse :: fieldsScan bs [] w

/-- `strings.Fields`: the maximal runs of bytes between white space. -/
def stringsFields (s : GoString) : List GoString := fieldsScan s [] 0

/-- `parseText`: `fields[1]` is read first and panics when the line has
fewer than two fields; the key is the base name cut to 15 bytes. -/
def parseText (text : GoString) : Except Panic (GoString × GoString) :=
  let fields := stringsFields text
  match fields[1]? with
  | none => .error .indexOutOfRange
  | some f1 =>
    let b := filepathBase f1
    let b := if b.length > 15 then b.take 15 else b
    match fields[0]? with
    | none => .error .indexOutOfRange
    | some f0 => .ok (f0, b)

/-- `getComm`: `data` is the result of reading `/proc/<pid>/comm` (`none`
on error).  The last byte is cut off; on empty data the slice expression
`data[:len(data)-1]` panics.  `ok none` is the `false` result. -/
def getComm (data : Option GoString) : Except Panic (Option GoString) :=
  match data with
  | none => .ok none
  | some d => if d.length = 0 then .error .sliceBounds else .ok (some d.dropLast)

/-! ## Applying a rule -/

/-- `strconv.Itoa`. -/
def itoa (i : Int) : GoString :=
  match i with
  | Int.ofNat n => (Nat.toDigits 10 n).map Char.toNat
  | Int.negSucc n => minus :: (Nat.toDigits 10 (n + 1)).map Char.toNat

/-- What the program does to the outside, in order.  `applyCall` marks the
entry into `Rule.apply`; `exec` is one `exec.Command(...).Run()`; the two
log events are the lines written to standard error. -/
inductive Event where
  | applyCall (r : Rule) (comm pid : GoString)
  | exec (name : GoString) (args : List GoString)
  | logCmd (comm pid name : GoString)
  | logReadDir (path : GoString)
  deriving DecidableEq, Repr

/-- The events of a run and the runtime panic that ended it, if any. -/
structure Outcome where
  trace : List Event
  panic : Option Panic
  deriving DecidableEq, Repr

/-- The surroundings of one process: `taskDir n` is what the `n`-th read
of `/proc/<pid>/task` lists (`none` on error), and `cmdFails` tells which
external commands return an error. -/
structure ProcEnv where
  taskDir : Nat → Option (List GoString)
  cmdFails : GoString → List GoString → Bool

/-- The variables of one `Rule.apply` call: the captured slice `pids`, the
number of reads of the task directory so far, the events so far, and
the panic that has ended the call, if any. -/
structure ApplyState where
  pids : List GoString
  reads : Nat
  trace : List Event
  panic : Option Panic

/-- The closure `tasks` of `Rule.apply`.  While `pids` is nil the task
directory is read; on error the error is logged and `pids[0] = pid`
indexes the nil slice, which panics. -/
def tasks (pid : GoString) (env : ProcEnv) (s : ApplyState) : ApplyState :=
  if s.pids = [] then
    match env.taskDir s.reads with
    | none =>
      { s with reads := s.reads + 1,
               trace := s.trace ++ [Event.logReadDir (ascii "/proc/" ++ pid ++ ascii "/task")],
               panic := some Panic.indexOutOfRange }
    | some files => { s with reads := s.reads + 1, pids := s.pids ++ files }
  else s

/-- One `exec.Command(name, args...).Run()` with the `printErr` that
follows a failure. -/
def runCmd (comm pid : GoString) (env : ProcEnv) (name : GoString) (args : List GoString)
    (s : ApplyState) : ApplyState :=
  { s with trace := s.trace ++ Event.exec name args ::
      (if env.cmdFails name args then [Event.logCmd comm pid name] else []) }

/-- Lines 196-203: `taskset`. -/
def tasksetStage (r : Rule) (comm pid : GoString) (env : ProcEnv) (s : ApplyState) :
    ApplyState :=
  if s.panic.isSome then s
  else
    match r.CPUAffinity with
    | none => s
    | some a =>
      runCmd comm pid env (ascii "taskset") [ascii "-a", ascii "-c", a, ascii "-p", pid] s

/-- Lines 205-212: `renice`. -/
def reniceStage (r : Rule) (comm pid : GoString) (env : ProcEnv) (s : ApplyState) :
    ApplyState :=
  if s.panic.isSome then s
  else
    match r.Nice with
    | none => s
    | some n =>
      let s1 := tasks pid env s
      if s1.panic.isSome then s1
      else runCmd comm pid env (ascii "renice") (itoa n :: s1.pids) s1

/-- Lines 214-228: `ionice`. -/
def ioniceStage (r : Rule) (comm pid : GoString) (env : ProcEnv) (s : ApplyState) :
    ApplyState :=
  if s.panic.isSome then s
  else
    match r.IOClass with
    | none => s
    | some c =>
      let args := [ascii "-c", c]
      let args := match r.IOPriority with
        | some p => args ++ [ascii "-n", itoa p]
        | none => args
      let args := args ++ [ascii "-p"]
      let s1 := tasks pid env s
      if s1.panic.isSome then s1
      else runCmd comm pid env (ascii "ionice") (args ++ s1.pids) s1

/-- Lines 230-241: `chrt`. -/
def chrtStage (r : Rule) (comm pid : GoString) (env : ProcEnv) (s : ApplyState) :
    ApplyState :=
  if s.panic.isSome then s
  else
    match r.SchedPolicy with
    | none => s
    | some policy =>
      let prio := match r.SchedPriority with
        | some p => itoa p
        | none => ascii "0"
      runCmd comm pid env (ascii "chrt")
        [ascii "-a", ascii "--" ++ policy, ascii "--pid", prio, pid] s

/-- The method `Rule.apply`.  The lines printed under `verbose` are not
part of the model. -/
def Rule.apply (r : Rule) (comm pid : GoString) (env : ProcEnv) : Outcome :=
  let s0 : ApplyState := ⟨[], 0, [Event.applyCall r comm pid], none⟩
  let s := chrtStage r comm pid env (ioniceStage r comm pid env
    (reniceStage r comm pid env (tasksetStage r comm pid env s0)))
  ⟨s.trace, s.panic⟩

/-! ## The bulk scan -/

/-- One entry of `/proc` as `ioutil.ReadDir` lists it, with what reading
`/proc/<name>/comm` gives (`none` on error) and the surroundings of that
process. -/
structure ProcEntry where
  name : GoString
  isDir : Bool
  comm : Option GoString
  env : ProcEnv

/-- `digitsRegexp.MatchString` for the pattern `[[:digit:]]+`, which is not
anchored: the string holds a decimal digit somewhere. -/
def digitsMatch (s : GoString) : Bool := s.any isDigit

/-- The loop of `Rules.apply` over the entries of `/proc`.  A panic ends
the loop (and the program) at once. -/
def scanLoop (rs : Rules) : List ProcEntry → Outcome
  | [] => ⟨[], none⟩
  | file :: rest =>
    if !file.isDir || !digitsMatch file.name then scanLoop rs rest
    else
      match getComm file.comm with
      | .error p => ⟨[], some p⟩
      | .ok none => scanLoop rs rest
      | .ok (some comm) =>
        match rs.match comm with
        | none => scanLoop rs rest
        | some rule =>
          let o := rule.apply comm file.name file.env
          if o.panic.isSome then o
          else
            let o2 := scanLoop rs rest
            ⟨o.trace ++ o2.trace, o2.panic⟩

/-- The method `Rules.apply`: `proc` is the result of reading `/proc`
(`none` on error). -/
def Rules.apply (rs : Rules) (proc : Option (List ProcEntry)) : Outcome :=
  match proc with
  | none => ⟨[Event.logReadDir (ascii "/proc")], none⟩
  | some files => scanLoop rs files

/-! ## The delayed task -/

/-- Conversion of an `int` to `uint` (64 bits). -/
def toUint64 (i : Int) : Nat := (i % 2 ^ 64).toNat

/-- Conversion to `int64`, and the result of `int64` arithmetic: the value
modulo `2^64` in the signed range. -/
def toInt64 (i : Int) : Int := (i + 2 ^ 63) % 2 ^ 64 - 2 ^ 63

/-- `time.Second`, in nanoseconds. -/
def timeSecond : Int := 1000000000

/-- The argument of `time.Sleep` in the delayed task (lines 372-377), in
nanoseconds: `delay` is the value of the flag `-s`. -/
def sleepDuration (delay : Nat) (rule : Rule) : Int :=
  let s : Nat := match rule.Delay with
    | some d => toUint64 d
    | none => delay
  toInt64 (toInt64 s * timeSecond)

/-- The task started for a matched notification, from the wake-up on
(lines 379-381): `data` is what reading `/proc/<pid>/comm` gives then. -/
def delayedTask (rule : Rule) (comm pid : GoString) (data : Option GoString)
    (env : ProcEnv) : Outcome :=
  match getComm data with
  | .error p => ⟨[], some p⟩
  | .ok none => ⟨[], none⟩
  | .ok (some c) => if c = pathBase comm then rule.apply comm pid env else ⟨[], none⟩

/-! ## The control loop -/

/-- A match waiting for its delay: what the started task captures. -/
structure PendingApplication where
  rule : Rule
  comm : GoString
  pid : GoString
  sleep : Int
  deriving DecidableEq, Repr

/-- How the daemon ends: `logErr.Fatal` (status 1), `os.Exit(128)`, or a
runtime panic. -/
inductive Exit where
  | fatal
  | status128
  | panic (p : Panic)
  deriving DecidableEq, Repr

/-- The state of the running daemon: the CPU count and the flag `-s`, fixed
at start, and the rule set held in `globalRules`. -/
structure Daemon where
  numCPU : Nat
  delay : Nat
  rules : Rules
  deriving DecidableEq, Repr

/-- What the `select` of the control loop can receive, with the outside
data the handler reads. -/
inductive Input where
  | text (t : GoString)
  | scanErr
  | reload (dir : Option (List DirEntry))
  | reapply (proc : Option (List ProcEntry))
  | wait

/-- The case `text := <-scanText`: parse the line and, on a match, start
a task. -/
def handleText (d : Daemon) (text : GoString) : Except Panic (Option PendingApplication) :=
  match parseText text with
  | .error p => .error p
  | .ok (pid, comm) =>
    match d.rules.match comm with
    | none => .ok none
    | some rule => .ok (some ⟨rule, comm, pid, sleepDuration d.delay rule⟩)

/-- One turn of the control loop (lines 367-395); an error is the end of
the daemon. -/
def step (d : Daemon) : Input → Except Exit Daemon
  | .text t =>
    match handleText d t with
    | .error p => .error (.panic p)
    | .ok _ => .ok d
  | .scanErr => .error .fatal
  | .reload dir =>
    match loadRules d.numCPU dir with
    | some rs => .ok { d with rules := rs }
    | none => .ok d
  | .reapply proc =>
    match (d.rules.apply proc).panic with
    | some p => .error (.panic p)
    | none => .ok d
  | .wait => .error .status128

/-- The start of `main` from the loading of the rules to `setRules`
(lines 317-326); `applyFlag` is the flag `-a`. -/
def startup (numCPU delay : Nat) (applyFlag : Bool) (dir : Option (List DirEntry))
    (proc : Option (List ProcEntry)) : Except Exit Daemon :=
  match loadRules numCPU dir with
  | none => .error .fatal
  | some rs =>
    match (if applyFlag then (rs.apply proc).panic else none) with
    | some p => .error (.panic p)
    | none => .ok ⟨numCPU, delay, rs⟩

/-- The states the daemon can be in: after a successful start, and after
any turn of the control loop that does not end it. -/
inductive Reachable : Daemon → Prop where
  | start (numCPU delay : Nat) (applyFlag : Bool) (dir : Option (List DirEntry))
      (proc : Option (List ProcEntry)) (d : Daemon)
      (h : startup numCPU delay applyFlag dir proc = .ok d) : Reachable d
  | next (d d2 : Daemon) (i : Input) (hd : Reachable d) (h : step d i = .ok d2) :
      Reachable d2

/-- Whether a result is a success: for `loadRule`, a nil error. -/
def accepted {ε α : Type} : Except ε α → Bool
  | .ok _ => true
  | .error _ => false

/-! ## Notions of the specification and concrete inputs -/

/-- The separator test of the specification: a comma or a minus sign. -/
def isListSep (b : Byte) : Bool := decide (b = comma) || decide (b = minus)

/-- A rule at the accepted ends of the three ranges, without io_class. -/
def boundaryRule : Rule :=
  ⟨some (ascii "stress"), none, some (-20), none, some 7, none, some 99, none⟩

/-- The rule of the end-to-end example: nice 10 on CPUs 0 to 1. -/
def stressRule : Rule :=
  ⟨some (ascii "stress"), some (ascii "0-1"), some 10, none, none, none, none, none⟩

/-- The key computed by `parseText` from the second field. -/
def commKey (f1 : GoString) : GoString :=
  if (filepathBase f1).length > 15 then (filepathBase f1).take 15 else filepathBase f1

/-- Whether an event is the entry into `Rule.apply`. -/
def isApplyCall : Event → Bool
  | .applyCall _ _ _ => true
  | _ => false

/-- A state reached from `s` by appending events that are no entries into
`Rule.apply`. -/
def Extends (s t : ApplyState) : Prop :=
  ∃ ext, t.trace = s.trace ++ ext ∧ ∀ e ∈ ext, isApplyCall e = false

/-- A daemon holding the rule of the end-to-end example. -/
def stressDaemon : Daemon := ⟨4, 1, [(ascii "stress", stressRule)]⟩

/-- A process environment in which every read and command succeeds. -/
def calmEnv (pid : GoString) : ProcEnv := ⟨fun _ => some [pid], fun _ _ => false⟩

/-- The effective delay in seconds, in the words of the specification: the
delay of the rule when it has one, else the default of the daemon. -/
def effectiveDelay (delay : Nat) (rule : Rule) : Int :=
  match rule.Delay with
  | some d => d
  | none => (delay : Int)

/-- A rule whose delay, in nanoseconds, is beyond the range of `int64`. -/
def longDelayRule : Rule :=
  ⟨some (ascii "stress"), none, none, none, none, none, none, some 9223372037⟩

/-- The rule of a directory entry that `loadRules` stores: the entry is
named `*.rules` and `loadRule` accepts its file. -/
def validRule (numCPU : Nat) (e : DirEntry) : Option Rule :=
  if filepathExt e.name = ascii ".rules" then
    match loadRule numCPU e.file with
    | .ok r => some r
    | .error _ => none
  else none

/-- The rules of the valid rule files of a directory, in directory order. -/
def validRules (numCPU : Nat) (files : List DirEntry) : List Rule :=
  files.filterMap (validRule numCPU)

/-- The entries named `*.rules` whose file `loadRule` rejects. -/
def invalidFiles (numCPU : Nat) (files : List DirEntry) : List DirEntry :=
  files.filter (fun e => decide (filepathExt e.name = ascii ".rules") &&
    !accepted (loadRule numCPU e.file))

/-- The names declared by a list of rules. -/
def ruleNames (rs : List Rule) : List GoString := rs.filterMap (fun r => r.Name)

/-- The keys of a rule set. -/
def Rules.keys (rs : Rules) : List GoString := rs.map Prod.fst

/-- The number of entries of what `loadRules` returns: `len` of the map,
which is `0` for the nil map. -/
def ruleCount (rs : Option Rules) : Nat :=
  match rs with
  | some m => m.length
  | none => 0

/-- The invariant of the loop of `loadRules`: the keys are distinct, and
every entry is stored under the name of its rule, which comes from a
valid file of `files`. -/
def LoadInv (numCPU : Nat) (files : List DirEntry) (rs : Rules) : Prop :=
  rs.keys.Nodup ∧ ∀ k r, (k, r) ∈ rs → r.Name = some k ∧ r ∈ validRules numCPU files

/-- Two valid rule files that declare the same name. -/
def twinDir : List DirEntry :=
  [⟨ascii "a.rules", some stressRule⟩, ⟨ascii "b.rules", some stressRule⟩]

/-- A directory whose only rule file has a nice value out of range. -/
def badDir : List DirEntry :=
  [⟨ascii "bad.rules", some ⟨some (ascii "bad"), none, some 20, none, none, none, none, none⟩⟩,
   ⟨ascii "README", none⟩]

/-- A process that is gone when its threads are listed: the task
directory cannot be read; every command succeeds. -/
def goneEnv : ProcEnv := ⟨fun _ => none, fun _ _ => false⟩

/-- A rule that sets all four policies. -/
def fullRule : Rule :=
  ⟨some (ascii "stress"), some (ascii "0-1"), some 10, some (ascii "idle"), none,
    some (ascii "fifo"), some 1, none⟩

/-- Whether an event runs the named command. -/
def isExecOf (name : GoString) : Event → Bool
  | .exec n _ => decide (n = name)
  | _ => false

/-- The processes of a snapshot that the scan matches, in order: the
entries that are directories with a digit in the name, whose short name
can be read and is a key of the rule set. -/
def scanMatches (rs : Rules) (files : List ProcEntry) : List (Rule × GoString × GoString) :=
  files.filterMap (fun file =>
    if !file.isDir || !digitsMatch file.name then none
    else
      match getComm file.comm with
      | .ok (some comm) =>
        match rs.match comm with
        | some rule => some (rule, comm, file.name)
        | none => none
      | _ => none)

/-- Two running processes named `stress`; the first is gone by the time
its threads are listed. -/
def twoStress : List ProcEntry :=
  [⟨ascii "100", true, some (ascii "stress\n"), goneEnv⟩,
   ⟨ascii "200", true, some (ascii "stress\n"), calmEnv (ascii "200")⟩]

/-! ## Rule validation -/

theorem within_iff (i lo hi : Int) : within i lo hi = true ↔ lo ≤ i ∧ i ≤ hi := by
  unfold within
  constructor
  · intro h
    simp only [Bool.not_eq_true', Bool.or_eq_false_iff, decide_eq_false_iff_not] at h
    omega
  · intro h
    simp only [Bool.not_eq_true', Bool.or_eq_false_iff, decide_eq_false_iff_not]
    omega

theorem failsCheck_eq_true_iff {α : Type} (p : Option α) (ok : α → Bool) :
    failsCheck p ok = true ↔ ¬ ∀ a, p = some a → ok a = true := by
  cases p <;> simp [failsCheck]

theorem loadRule_ok_eq (numCPU : Nat) (file : Option Rule) (r : Rule)
    (h : loadRule numCPU file = .ok r) : file = some r := by
  cases file with
  | none => simp [loadRule] at h
  | some r0 =>
    simp only [loadRule, validateRule] at h
    split_ifs at h
    cases h
    rfl

theorem loadRule_ok_name (numCPU : Nat) (file : Option Rule) (r : Rule)
    (h : loadRule numCPU file = .ok r) : ∃ n, r.Name = some n := by
  have hf := loadRule_ok_eq numCPU file r h
  subst hf
  simp only [loadRule, validateRule] at h
  split_ifs at h with h1
  exact Option.ne_none_iff_exists'.mp h1

theorem accepted_validate_iff (numCPU : Nat) (r : Rule) :
    accepted (loadRule numCPU (some r)) = true ↔
      r.Name ≠ none ∧
      (∀ a, r.CPUAffinity = some a → cpuAffinityOk numCPU a = true) ∧
      (∀ n, r.Nice = some n → within n (-20) 19 = true) ∧
      (∀ c, r.IOClass = some c → ioClassOk c = true) ∧
      (∀ p, r.IOPriority = some p → within p 0 7 = true) ∧
      (∀ p, r.SchedPolicy = some p → schedPolicyOk p = true) ∧
      (∀ p, r.SchedPriority = some p → within p 1 99 = true) := by
  simp only [loadRule, validateRule]
  split_ifs with h1 h2 h3 h4 h5 h6 h7 <;>
    simp only [failsCheck_eq_true_iff, Bool.not_eq_true] at * <;>
    simp only [accepted] <;> tauto

theorem cpuListOk_iff (numCPU : Nat) (l : List GoString) :
    cpuListOk numCPU l = true ↔ ∀ tok ∈ l, ∃ i : Int, atoi tok = some i ∧ i < numCPU := by
  induction l with
  | nil => simp [cpuListOk]
  | cons t ts ih =>
    simp only [cpuListOk, List.mem_cons, forall_eq_or_imp]
    cases h : atoi t with
    | none => simp
    | some i =>
      by_cases hi : i ≥ (numCPU : Int)
      · simp [hi]
      · simp [hi, ih]; omega

theorem split_replace_eq (s : GoString) :
    stringsSplit (stringsReplace s minus comma) comma = splitOnP isListSep s := by
  induction s with
  | nil => rfl
  | cons b bs ih =>
    simp only [stringsSplit, stringsReplace, List.map_cons, splitOnP] at ih ⊢
    by_cases hm : b = minus
    · simp [hm, isListSep, ih]
    · by_cases hc : b = comma
      · simp [hc, isListSep, ih]
      · simp [hm, hc, isListSep, ih]

theorem splitOnP_not_sep (p : Byte → Bool) (s : GoString) :
    ∀ tok ∈ splitOnP p s, ∀ b ∈ tok, p b = false := by
  induction s with
  | nil => simp [splitOnP]
  | cons b bs ih =>
    intro tok htok
    simp only [splitOnP] at htok
    cases hp : p b with
    | true =>
      simp only [hp, if_true, List.mem_cons] at htok
      rcases htok with h0 | h
      · rw [h0]; simp
      · exact ih tok h
    | false =>
      cases hs : splitOnP p bs with
      | nil =>
        simp only [hp, hs, Bool.false_eq_true, if_false, List.mem_singleton] at htok
        rw [htok]
        simpa using hp
      | cons t ts =>
        simp only [hp, hs, Bool.false_eq_true, if_false, List.mem_cons] at htok
        have ht := ih t (by simp [hs])
        rcases htok with h0 | h
        · rw [h0]
          intro c hc
          rcases List.mem_cons.mp hc with h1 | h1
          · rw [h1]; exact hp
          · exact ht c h1
        · exact ih tok (by simp [hs, h])

theorem atoi_nonneg (tok : GoString) (i : Int) (hm : minus ∉ tok) (h : atoi tok = some i) :
    0 ≤ i := by
  cases tok with
  | nil => simp [atoi] at h
  | cons b bs =>
    have hb : b ≠ minus := fun e => hm (by simp [e])
    simp only [atoi, hb, if_false] at h
    split at h
    · simp at h
    · split at h
      · simp at h
      · split_ifs at h
        cases h
        exact Int.ofNat_nonneg _

/-- C6: a decoded rule with a name, whose cpu_affinity, io_class and
sched_policy are each absent or pass their checks, is accepted by loadRule
exactly when every one of nice, io_priority and sched_priority that is
present lies in -20..19, 0..7 and 1..99 respectively; no other field takes
part, so io_priority is judged the same with or without io_class. -/
theorem loadRule_numeric_ranges (numCPU : Nat) (r : Rule)
    (hname : r.Name ≠ none)
    (hcpu : ∀ a, r.CPUAffinity = some a → cpuAffinityOk numCPU a = true)
    (hio : ∀ c, r.IOClass = some c → ioClassOk c = true)
    (hsched : ∀ p, r.SchedPolicy = some p → schedPolicyOk p = true) :
    accepted (loadRule numCPU (some r)) = true ↔
      (∀ n, r.Nice = some n → -20 ≤ n ∧ n ≤ 19) ∧
      (∀ p, r.IOPriority = some p → 0 ≤ p ∧ p ≤ 7) ∧
      (∀ p, r.SchedPriority = some p → 1 ≤ p ∧ p ≤ 99) := by
  rw [accepted_validate_iff]
  simp only [within_iff]
  tauto

/-- The rule with nice -20, io_priority 7 and sched_priority 99, and no
io_class, is accepted. -/
theorem loadRule_numeric_ranges_witness :
    boundaryRule.Name ≠ none ∧ boundaryRule.IOClass = none ∧
    accepted (loadRule 4 (some boundaryRule)) = true :=
  ⟨by decide, rfl,
   (loadRule_numeric_ranges 4 boundaryRule (by decide) (by simp [boundaryRule])
      (by simp [boundaryRule]) (by simp [boundaryRule])).mpr
    ⟨by simp [boundaryRule], by simp [boundaryRule], by simp [boundaryRule]⟩⟩

/-- C9: for a rule that passes every other check, loadRule accepts the
cpu_affinity string exactly when every token obtained by splitting it at
commas and minus signs parses as an integer i with 0 <= i < numCPU; then no
token read by the code is empty, negative, or at or above numCPU. -/
theorem cpu_affinity_accept_iff (numCPU : Nat) (r : Rule) (aff : GoString)
    (haff : r.CPUAffinity = some aff)
    (hname : r.Name ≠ none)
    (hnice : ∀ n, r.Nice = some n → within n (-20) 19 = true)
    (hio : ∀ c, r.IOClass = some c → ioClassOk c = true)
    (hiop : ∀ p, r.IOPriority = some p → within p 0 7 = true)
    (hsched : ∀ p, r.SchedPolicy = some p → schedPolicyOk p = true)
    (hsp : ∀ p, r.SchedPriority = some p → within p 1 99 = true) :
    (accepted (loadRule numCPU (some r)) = true ↔
      ∀ tok ∈ splitOnP isListSep aff,
        ∃ i : Int, atoi tok = some i ∧ 0 ≤ i ∧ i < (numCPU : Int)) ∧
    (accepted (loadRule numCPU (some r)) = true →
      ∀ tok ∈ stringsSplit (stringsReplace aff minus comma) comma,
        tok ≠ [] ∧ ∃ i : Int, atoi tok = some i ∧ 0 ≤ i ∧ i < (numCPU : Int)) := by
  have key : accepted (loadRule numCPU (some r)) = true ↔
      ∀ tok ∈ splitOnP isListSep aff,
        ∃ i : Int, atoi tok = some i ∧ 0 ≤ i ∧ i < (numCPU : Int) := by
    rw [accepted_validate_iff]
    have hc : (∀ a, r.CPUAffinity = some a → cpuAffinityOk numCPU a = true) ↔
        cpuAffinityOk numCPU aff = true := by
      rw [haff]; simp
    rw [hc, cpuAffinityOk, split_replace_eq, cpuListOk_iff]
    constructor
    · rintro ⟨-, h, -⟩ tok htok
      obtain ⟨i, hi, hlt⟩ := h tok htok
      refine ⟨i, hi, atoi_nonneg tok i ?_ hi, hlt⟩
      intro hm
      have := splitOnP_not_sep isListSep aff tok htok minus hm
      simp [isListSep] at this
    · intro h
      refine ⟨hname, ?_, hnice, hio, hiop, hsched, hsp⟩
      intro tok htok
      obtain ⟨i, hi, -, hlt⟩ := h tok htok
      exact ⟨i, hi, hlt⟩
  refine ⟨key, ?_⟩
  intro hacc tok htok
  rw [split_replace_eq] at htok
  obtain ⟨i, hi, h0, hlt⟩ := key.mp hacc tok htok
  refine ⟨?_, i, hi, h0, hlt⟩
  intro he
  rw [he] at hi
  simp [atoi] at hi

/-- The affinity `0-1` on four CPUs. -/
theorem cpu_affinity_accept_iff_witness :
    (accepted (loadRule 4 (some stressRule)) = true ↔
      ∀ tok ∈ splitOnP isListSep (ascii "0-1"),
        ∃ i : Int, atoi tok = some i ∧ 0 ≤ i ∧ i < ((4 : Nat) : Int)) ∧
    (accepted (loadRule 4 (some stressRule)) = true →
      ∀ tok ∈ stringsSplit (stringsReplace (ascii "0-1") minus comma) comma,
        tok ≠ [] ∧ ∃ i : Int, atoi tok = some i ∧ 0 ≤ i ∧ i < ((4 : Nat) : Int)) :=
  cpu_affinity_accept_iff 4 stressRule (ascii "0-1") rfl (by decide)
    (by simp [stressRule]; decide) (by simp [stressRule]) (by simp [stressRule])
    (by simp [stressRule]) (by simp [stressRule])

/-! ## Base names and keys -/

theorem untilSlash_no_slash (l : List Byte) : slash ∉ untilSlash l := by
  induction l with
  | nil => simp [untilSlash]
  | cons b bs ih =>
    simp only [untilSlash]
    split_ifs with h
    · simp
    · simp only [List.mem_cons, not_or]
      exact ⟨fun e => h e.symm, ih⟩

theorem untilSlash_of_no_slash (l : List Byte) (h : slash ∉ l) : untilSlash l = l := by
  induction l with
  | nil => rfl
  | cons b bs ih =>
    simp only [List.mem_cons, not_or] at h
    simp only [untilSlash]
    rw [if_neg (fun e => h.1 e.symm), ih h.2]

theorem dropSlashes_of_no_slash (l : List Byte) (h : slash ∉ l) : dropSlashes l = l := by
  cases l with
  | nil => rfl
  | cons b bs =>
    simp only [List.mem_cons, not_or] at h
    simp only [dropSlashes]
    rw [if_neg (fun e => h.1 e.symm)]

theorem pathBase_of_no_slash (s : GoString) (hne : s ≠ []) (h : slash ∉ s) :
    pathBase s = s := by
  have hr : slash ∉ s.reverse := by simpa using h
  simp only [pathBase, if_neg hne, dropSlashes_of_no_slash _ hr, untilSlash_of_no_slash _ hr,
    List.reverse_reverse]

theorem filepathBase_cases (p : GoString) :
    filepathBase p = [slash] ∨ (filepathBase p ≠ [] ∧ slash ∉ filepathBase p) := by
  simp only [filepathBase]
  split_ifs with h1 h2
  · right; simp [dot, slash]
  · left; rfl
  · right
    refine ⟨h2, ?_⟩
    simpa using untilSlash_no_slash (dropSlashes p.reverse)

theorem pathBase_commKey (f1 : GoString) : pathBase (commKey f1) = commKey f1 := by
  unfold commKey
  rcases filepathBase_cases f1 with h | ⟨hne, hs⟩
  · rw [h]; decide
  · split_ifs with hl
    · apply pathBase_of_no_slash
      · intro he
        rcases List.take_eq_nil_iff.mp he with h0 | h0
        · omega
        · exact hne h0
      · exact fun hm => hs (List.mem_of_mem_take hm)
    · exact pathBase_of_no_slash _ hne hs

theorem parseText_ok (text pid comm : GoString) (h : parseText text = .ok (pid, comm)) :
    ∃ f1, (stringsFields text)[1]? = some f1 ∧ (stringsFields text)[0]? = some pid ∧
      comm = commKey f1 := by
  simp only [parseText] at h
  cases h1 : (stringsFields text)[1]? with
  | none => simp [h1] at h
  | some f1 =>
    cases h0 : (stringsFields text)[0]? with
    | none => simp [h1, h0] at h
    | some f0 =>
      simp only [h1, h0] at h
      injection h with h
      injection h with ha hb
      exact ⟨f1, rfl, by rw [ha], by rw [← hb]; rfl⟩

/-- C2: for a line with at least two fields, parseText returns the first
field as the pid and, as the key, the base name of the second field cut to
15 bytes: the base name itself when it is at most 15 long, else exactly its
first 15 bytes; the key is never longer than 15. -/
theorem parseText_key (text : GoString) (h : 2 ≤ (stringsFields text).length) :
    ∃ f0 f1 key, (stringsFields text)[0]? = some f0 ∧ (stringsFields text)[1]? = some f1 ∧
      parseText text = .ok (f0, key) ∧
      ((filepathBase f1).length ≤ 15 → key = filepathBase f1) ∧
      (15 < (filepathBase f1).length → key = (filepathBase f1).take 15 ∧ key.length = 15) ∧
      key.length ≤ 15 := by
  obtain ⟨f0, h0⟩ : ∃ f0, (stringsFields text)[0]? = some f0 :=
    ⟨(stringsFields text)[0], List.getElem?_eq_getElem (by omega)⟩
  obtain ⟨f1, h1⟩ : ∃ f1, (stringsFields text)[1]? = some f1 :=
    ⟨(stringsFields text)[1], List.getElem?_eq_getElem (by omega)⟩
  refine ⟨f0, f1, commKey f1, h0, h1, ?_, ?_, ?_, ?_⟩
  · simp only [parseText, h0, h1, commKey]
  · intro hl
    simp only [commKey]
    rw [if_neg (by omega)]
  · intro hl
    simp only [commKey]
    rw [if_pos hl]
    exact ⟨rfl, by rw [List.length_take]; omega⟩
  · simp only [commKey]
    split_ifs with hl
    · rw [List.length_take]; omega
    · omega

/-- A line whose program name is longer than 15 bytes. -/
theorem parseText_key_witness :
    2 ≤ (stringsFields (ascii "1234 /usr/bin/a-very-long-program-name")).length ∧
    ∃ f0 f1 key,
      (stringsFields (ascii "1234 /usr/bin/a-very-long-program-name"))[0]? = some f0 ∧
      (stringsFields (ascii "1234 /usr/bin/a-very-long-program-name"))[1]? = some f1 ∧
      parseText (ascii "1234 /usr/bin/a-very-long-program-name") = .ok (f0, key) ∧
      ((filepathBase f1).length ≤ 15 → key = filepathBase f1) ∧
      (15 < (filepathBase f1).length → key = (filepathBase f1).take 15 ∧ key.length = 15) ∧
      key.length ≤ 15 :=
  ⟨by decide, parseText_key (ascii "1234 /usr/bin/a-very-long-program-name") (by decide)⟩

/-! ## The events of one application -/

theorem Extends.refl (s : ApplyState) : Extends s s := ⟨[], by simp, by simp⟩

theorem Extends.trans {s t u : ApplyState} (h1 : Extends s t) (h2 : Extends t u) :
    Extends s u := by
  obtain ⟨e1, he1, hn1⟩ := h1
  obtain ⟨e2, he2, hn2⟩ := h2
  refine ⟨e1 ++ e2, by rw [he2, he1, List.append_assoc], ?_⟩
  intro e he
  rcases List.mem_append.mp he with h | h
  · exact hn1 e h
  · exact hn2 e h

theorem tasks_extends (pid : GoString) (env : ProcEnv) (s : ApplyState) :
    Extends s (tasks pid env s) := by
  unfold tasks
  split_ifs
  · split
    · exact ⟨[_], rfl, by simp [isApplyCall]⟩
    · exact ⟨[], by simp, by simp⟩
  · exact Extends.refl s

theorem runCmd_extends (comm pid : GoString) (env : ProcEnv) (name : GoString)
    (args : List GoString) (s : ApplyState) : Extends s (runCmd comm pid env name args s) := by
  refine ⟨_, rfl, ?_⟩
  intro e he
  rcases List.mem_cons.mp he with h | h
  · rw [h]; rfl
  · split_ifs at h
    · rw [List.mem_singleton.mp h]; rfl
    · simp at h

theorem tasksetStage_extends (r : Rule) (comm pid : GoString) (env : ProcEnv)
    (s : ApplyState) : Extends s (tasksetStage r comm pid env s) := by
  unfold tasksetStage
  split_ifs
  · exact Extends.refl s
  · split
    · exact Extends.refl s
    · exact runCmd_extends _ _ _ _ _ _

theorem reniceStage_extends (r : Rule) (comm pid : GoString) (env : ProcEnv)
    (s : ApplyState) : Extends s (reniceStage r comm pid env s) := by
  unfold reniceStage
  split_ifs
  · exact Extends.refl s
  · split
    · exact Extends.refl s
    · simp only
      split_ifs
      · exact tasks_extends pid env s
      · exact (tasks_extends pid env s).trans (runCmd_extends _ _ _ _ _ _)

theorem ioniceStage_extends (r : Rule) (comm pid : GoString) (env : ProcEnv)
    (s : ApplyState) : Extends s (ioniceStage r comm pid env s) := by
  unfold ioniceStage
  split_ifs
  · exact Extends.refl s
  · split
    · exact Extends.refl s
    · simp only
      split_ifs
      · exact tasks_extends pid env s
      · exact (tasks_extends pid env s).trans (runCmd_extends _ _ _ _ _ _)

theorem chrtStage_extends (r : Rule) (comm pid : GoString) (env : ProcEnv)
    (s : ApplyState) : Extends s (chrtStage r comm pid env s) := by
  unfold chrtStage
  split_ifs
  · exact Extends.refl s
  · split
    · exact Extends.refl s
    · exact runCmd_extends _ _ _ _ _ _

theorem apply_trace (r : Rule) (comm pid : GoString) (env : ProcEnv) :
    ∃ rest, (r.apply comm pid env).trace = Event.applyCall r comm pid :: rest ∧
      ∀ e ∈ rest, isApplyCall e = false := by
  have h := (((tasksetStage_extends r comm pid env
      ⟨[], 0, [Event.applyCall r comm pid], none⟩).trans
    (reniceStage_extends r comm pid env _)).trans
    (ioniceStage_extends r comm pid env _)).trans
    (chrtStage_extends r comm pid env _)
  obtain ⟨ext, he, hn⟩ := h
  exact ⟨ext, by simpa [Rule.apply] using he, hn⟩

theorem handleText_ok (d : Daemon) (text : GoString) (p : PendingApplication)
    (h : handleText d text = .ok (some p)) :
    parseText text = .ok (p.pid, p.comm) ∧ d.rules.match p.comm = some p.rule ∧
      p.sleep = sleepDuration d.delay p.rule := by
  simp only [handleText] at h
  cases hp : parseText text with
  | error e => simp [hp] at h
  | ok pc =>
    obtain ⟨pid, comm⟩ := pc
    simp only [hp] at h
    cases hm : d.rules.match comm with
    | none => simp [hm] at h
    | some rule =>
      simp only [hm] at h
      injection h with h
      injection h with h
      subst h
      exact ⟨rfl, hm, rfl⟩

/-- C1: for a notification whose key matched a rule, that key is left
unchanged by path.Base, and the task that wakes up enters Rule.apply with
the matched rule, key and pid exactly when reading the short name of the
process succeeds and gives the matched key; in that case it does what
Rule.apply does and enters it once, and in every other case it does
nothing at all. -/
theorem delayed_task_applies_iff (d : Daemon) (text : GoString) (p : PendingApplication)
    (h : handleText d text = .ok (some p)) (data : Option GoString) (env : ProcEnv) :
    pathBase p.comm = p.comm ∧
    (Event.applyCall p.rule p.comm p.pid ∈ (delayedTask p.rule p.comm p.pid data env).trace ↔
      getComm data = .ok (some p.comm)) ∧
    (getComm data = .ok (some p.comm) →
      delayedTask p.rule p.comm p.pid data env = p.rule.apply p.comm p.pid env ∧
      ((delayedTask p.rule p.comm p.pid data env).trace.filter isApplyCall =
        [Event.applyCall p.rule p.comm p.pid])) ∧
    (getComm data ≠ .ok (some p.comm) →
      (delayedTask p.rule p.comm p.pid data env).trace = []) := by
  obtain ⟨hparse, -, -⟩ := handleText_ok d text p h
  obtain ⟨f1, -, -, hkey⟩ := parseText_ok text p.pid p.comm hparse
  have hbase : pathBase p.comm = p.comm := by rw [hkey]; exact pathBase_commKey f1
  obtain ⟨rest, htr, hrest⟩ := apply_trace p.rule p.comm p.pid env
  have hyes : getComm data = .ok (some p.comm) →
      delayedTask p.rule p.comm p.pid data env = p.rule.apply p.comm p.pid env := by
    intro hg
    simp [delayedTask, hg, hbase]
  have hno : getComm data ≠ .ok (some p.comm) →
      (delayedTask p.rule p.comm p.pid data env).trace = [] := by
    intro hg
    simp only [delayedTask, hbase]
    cases hc : getComm data with
    | error e => rfl
    | ok o =>
      cases o with
      | none => rfl
      | some c =>
        have hne : c ≠ p.comm := fun e => hg (by rw [hc, e])
        simp [hne]
  refine ⟨hbase, ⟨?_, ?_⟩, ?_, hno⟩
  · intro hmem
    by_contra hg
    rw [hno hg] at hmem
    simp at hmem
  · intro hg
    rw [hyes hg, htr]
    simp
  · intro hg
    refine ⟨hyes hg, ?_⟩
    rw [hyes hg, htr]
    simp only [List.filter_cons, isApplyCall, if_true]
    congr 1
    exact List.filter_eq_nil_iff.mpr (fun e he => by simp [hrest e he])

/-- The notification of `/usr/bin/stress` under pid 4321, with the process
still named `stress` at the wake-up. -/
theorem delayed_task_applies_iff_witness :
    handleText stressDaemon (ascii "4321 /usr/bin/stress") =
      .ok (some ⟨stressRule, ascii "stress", ascii "4321", 1000000000⟩) ∧
    (pathBase (ascii "stress") = ascii "stress" ∧
    (Event.applyCall stressRule (ascii "stress") (ascii "4321") ∈
        (delayedTask stressRule (ascii "stress") (ascii "4321") (some (ascii "stress\n"))
          (calmEnv (ascii "4321"))).trace ↔
      getComm (some (ascii "stress\n")) = .ok (some (ascii "stress"))) ∧
    (getComm (some (ascii "stress\n")) = .ok (some (ascii "stress")) →
      delayedTask stressRule (ascii "stress") (ascii "4321") (some (ascii "stress\n"))
          (calmEnv (ascii "4321")) =
        stressRule.apply (ascii "stress") (ascii "4321") (calmEnv (ascii "4321")) ∧
      ((delayedTask stressRule (ascii "stress") (ascii "4321") (some (ascii "stress\n"))
          (calmEnv (ascii "4321"))).trace.filter isApplyCall =
        [Event.applyCall stressRule (ascii "stress") (ascii "4321")])) ∧
    (getComm (some (ascii "stress\n")) ≠ .ok (some (ascii "stress")) →
      (delayedTask stressRule (ascii "stress") (ascii "4321") (some (ascii "stress\n"))
          (calmEnv (ascii "4321"))).trace = [])) :=
  ⟨by decide, delayed_task_applies_iff stressDaemon (ascii "4321 /usr/bin/stress")
    ⟨stressRule, ascii "stress", ascii "4321", 1000000000⟩ (by decide)
    (some (ascii "stress\n")) (calmEnv (ascii "4321"))⟩

/-! ## The delay -/

/-- C7 as stated fails: the delay 9223372037 is accepted by loadRule, and
the sleep is then given a negative duration, not 9223372037 seconds. -/
theorem sleepDuration_overflow :
    accepted (loadRule 4 (some longDelayRule)) = true ∧
    effectiveDelay 1 longDelayRule = 9223372037 ∧
    sleepDuration 1 longDelayRule = -9223372036709551616 ∧
    sleepDuration 1 longDelayRule ≠ effectiveDelay 1 longDelayRule * timeSecond := by
  decide

/-- C7, for the delays that fit: the argument of the sleep is the effective
delay (the delay of the rule when present, else the default) times one
second, whenever that product lies in the range of the signed 64-bit
duration. -/
theorem sleepDuration_exact (delay : Nat) (rule : Rule)
    (hfit : -2 ^ 63 ≤ effectiveDelay delay rule * timeSecond ∧
      effectiveDelay delay rule * timeSecond < 2 ^ 63) :
    sleepDuration delay rule = effectiveDelay delay rule * timeSecond := by
  unfold sleepDuration
  unfold effectiveDelay at *
  cases hd : rule.Delay with
  | none =>
    simp only [hd, toInt64, timeSecond] at *
    norm_num at *
    omega
  | some d =>
    simp only [hd, toInt64, toUint64, timeSecond] at *
    norm_num at *
    omega

/-- The default delay of one second, for a rule without a delay. -/
theorem sleepDuration_exact_witness :
    (-2 ^ 63 ≤ effectiveDelay 1 stressRule * timeSecond ∧
      effectiveDelay 1 stressRule * timeSecond < 2 ^ 63) ∧
    sleepDuration 1 stressRule = effectiveDelay 1 stressRule * timeSecond :=
  ⟨by decide, sleepDuration_exact 1 stressRule (by decide)⟩

/-! ## Loading a directory -/

theorem validRule_name (numCPU : Nat) (e : DirEntry) (r : Rule)
    (h : validRule numCPU e = some r) : ∃ n, r.Name = some n := by
  unfold validRule at h
  split_ifs at h
  cases hl : loadRule numCPU e.file with
  | error err => simp [hl] at h
  | ok r0 =>
    simp only [hl, Option.some.injEq] at h
    subst h
    exact loadRule_ok_name numCPU e.file r0 hl

theorem loadRulesStep_eq (numCPU : Nat) (rules : Rules) (e : DirEntry) :
    loadRulesStep numCPU rules e =
      match validRule numCPU e with
      | none => rules
      | some r =>
        match r.Name with
        | some n => rules.set n r
        | none => rules := by
  by_cases hx : filepathExt e.name = ascii ".rules"
  · simp only [loadRulesStep, validRule, hx, ne_eq, not_true_eq_false, if_false, if_true]
    cases loadRule numCPU e.file <;> rfl
  · simp only [loadRulesStep, validRule, hx, ne_eq, not_false_eq_true, if_true, if_false]

theorem keys_set (rs : Rules) (k : GoString) (r : Rule) :
    (rs.set k r).keys = k :: rs.keys.filter (fun x => decide (x ≠ k)) := by
  simp only [Rules.set, Rules.keys, List.map_cons, List.filter_map]
  rfl

theorem set_inv (numCPU : Nat) (files : List DirEntry) (rs : Rules) (k : GoString) (r : Rule)
    (h : LoadInv numCPU files rs) (hn : r.Name = some k) (hv : r ∈ validRules numCPU files) :
    LoadInv numCPU files (rs.set k r) := by
  obtain ⟨hnd, hall⟩ := h
  constructor
  · rw [keys_set, List.nodup_cons]
    exact ⟨by simp [List.mem_filter], hnd.filter _⟩
  · intro k2 r2 hmem
    simp only [Rules.set, List.mem_cons, Prod.mk.injEq, List.mem_filter] at hmem
    rcases hmem with ⟨h1, h2⟩ | ⟨h1, -⟩
    · rw [h1, h2]; exact ⟨hn, hv⟩
    · exact hall k2 r2 h1

theorem LoadInv.mono (numCPU : Nat) (files more : List DirEntry) (rs : Rules)
    (h : LoadInv numCPU files rs) : LoadInv numCPU (files ++ more) rs := by
  refine ⟨h.1, fun k r hm => ⟨(h.2 k r hm).1, ?_⟩⟩
  simp only [validRules, List.filterMap_append, List.mem_append]
  exact Or.inl (h.2 k r hm).2

theorem foldl_inv (numCPU : Nat) (files : List DirEntry) :
    ∀ (done : List DirEntry) (acc : Rules), LoadInv numCPU done acc →
      LoadInv numCPU (done ++ files) (files.foldl (loadRulesStep numCPU) acc) := by
  induction files with
  | nil => intro done acc h; simpa using h
  | cons e es ih =>
    intro done acc h
    have h2 : LoadInv numCPU (done ++ [e]) (loadRulesStep numCPU acc e) := by
      rw [loadRulesStep_eq]
      cases hv : validRule numCPU e with
      | none => exact LoadInv.mono numCPU done [e] acc h
      | some r =>
        obtain ⟨n, hn⟩ := validRule_name numCPU e r hv
        simp only [hn]
        apply set_inv numCPU _ acc n r (LoadInv.mono numCPU done [e] acc h) hn
        simp [validRules, List.filterMap_append, hv]
    have := ih (done ++ [e]) _ h2
    simpa using this

theorem foldl_keys (numCPU : Nat) (files : List DirEntry) :
    ∀ (acc : Rules) (k : GoString),
      k ∈ (files.foldl (loadRulesStep numCPU) acc).keys ↔
        k ∈ acc.keys ∨ k ∈ ruleNames (validRules numCPU files) := by
  induction files with
  | nil => intro acc k; simp [validRules, ruleNames]
  | cons e es ih =>
    intro acc k
    rw [List.foldl_cons, ih, loadRulesStep_eq]
    cases hv : validRule numCPU e with
    | none => simp [validRules, hv]
    | some r =>
      obtain ⟨n, hn⟩ := validRule_name numCPU e r hv
      simp only [hn, keys_set, validRules, List.filterMap_cons, hv, ruleNames, List.mem_cons,
        List.mem_filter, decide_eq_true_eq]
      by_cases hk : k = n
      · simp [hk]
      · simp [hk]

theorem ruleCount_loadRules (numCPU : Nat) (files : List DirEntry) :
    ruleCount (loadRules numCPU (some files)) =
      (files.foldl (loadRulesStep numCPU) []).length := by
  simp only [loadRules]
  split_ifs with h
  · rfl
  · simp only [ruleCount]; omega

theorem loadRules_some (numCPU : Nat) (files : List DirEntry) (m : Rules)
    (h : loadRules numCPU (some files) = some m) :
    m = files.foldl (loadRulesStep numCPU) [] ∧ m ≠ [] := by
  simp only [loadRules] at h
  split_ifs at h with hl
  injection h with h
  subst h
  exact ⟨rfl, List.length_pos.mp hl⟩

theorem loadRules_ne_empty (numCPU : Nat) (dir : Option (List DirEntry)) :
    loadRules numCPU dir ≠ some [] := by
  intro h
  cases dir with
  | none => simp [loadRules] at h
  | some files => exact (loadRules_some numCPU files [] h).2 rfl

theorem loadRules_eq_none_iff (numCPU : Nat) (files : List DirEntry) :
    loadRules numCPU (some files) = none ↔ validRules numCPU files = [] := by
  have hk := foldl_keys numCPU files []
  constructor
  · intro h
    have hnil : files.foldl (loadRulesStep numCPU) [] = [] := by
      simp only [loadRules] at h
      split_ifs at h with hl
      exact List.length_eq_zero.mp (by omega)
    rw [hnil] at hk
    cases hv : validRules numCPU files with
    | nil => rfl
    | cons r rs =>
      exfalso
      have hr : r ∈ validRules numCPU files := by simp [hv]
      obtain ⟨e, -, he⟩ := List.mem_filterMap.mp hr
      obtain ⟨n, hn⟩ := validRule_name numCPU e r he
      have := (hk n).mpr (Or.inr (List.mem_filterMap.mpr ⟨r, hr, hn⟩))
      simp [Rules.keys] at this
  · intro h
    have hnil : files.foldl (loadRulesStep numCPU) [] = [] := by
      cases hf : files.foldl (loadRulesStep numCPU) [] with
      | nil => rfl
      | cons kr rest =>
        exfalso
        have := (hk kr.1).mp (by simp [hf, Rules.keys])
        simp [h, ruleNames, Rules.keys] at this
    simp [loadRules, hnil]

theorem eq_of_nodup_names (l : List Rule) (h : (ruleNames l).Nodup) (a b : Rule)
    (ha : a ∈ l) (hb : b ∈ l) (k : GoString) (hfa : a.Name = some k) (hfb : b.Name = some k) :
    a = b := by
  induction l with
  | nil => simp at ha
  | cons x xs ih =>
    have hmem : ∀ c ∈ xs, c.Name = some k → k ∈ ruleNames xs :=
      fun c hc hn => List.mem_filterMap.mpr ⟨c, hc, hn⟩
    cases hx : x.Name with
    | none =>
      have h2 : (ruleNames xs).Nodup := by simpa [ruleNames, hx] using h
      rcases List.mem_cons.mp ha with h1 | h1
      · rw [h1, hx] at hfa; simp at hfa
      · rcases List.mem_cons.mp hb with h3 | h3
        · rw [h3, hx] at hfb; simp at hfb
        · exact ih h2 h1 h3
    | some y =>
      have h2 : y ∉ ruleNames xs ∧ (ruleNames xs).Nodup := by
        simpa [ruleNames, hx] using h
      rcases List.mem_cons.mp ha with h1 | h1
      · rcases List.mem_cons.mp hb with h3 | h3
        · rw [h1, h3]
        · exfalso
          rw [h1, hx] at hfa
          injection hfa with hfa
          exact h2.1 (hfa ▸ hmem b h3 hfb)
      · rcases List.mem_cons.mp hb with h3 | h3
        · exfalso
          rw [h3, hx] at hfb
          injection hfb with hfb
          exact h2.1 (hfb ▸ hmem a h1 hfa)
        · exact ih h2.2 h1 h3

/-- C5 as stated fails: two valid rule files and no invalid one, both
declaring the name `stress`, give a rule set of one entry, not two. -/
theorem loadRules_same_name :
    (validRules 4 twinDir).length = 2 ∧ (invalidFiles 4 twinDir).length = 0 ∧
    ruleCount (loadRules 4 (some twinDir)) = 1 ∧
    ruleCount (loadRules 4 (some twinDir)) ≠ (validRules 4 twinDir).length := by
  decide

/-- C5, counting names: what loadRules returns for a readable directory has
distinct keys, every entry stored under the name its rule declares and
coming from a valid rule file; every valid rule file has its name among the
keys, whatever invalid files the directory holds; the number of entries is
the number of distinct names declared by the valid files; when no two of
them declare the same name it is their number N, and each valid rule is
itself the entry under its name. -/
theorem loadRules_entries (numCPU : Nat) (files : List DirEntry) :
    (∀ m, loadRules numCPU (some files) = some m →
      m.keys.Nodup ∧ ∀ k r, (k, r) ∈ m → r.Name = some k ∧ r ∈ validRules numCPU files) ∧
    (∀ r ∈ validRules numCPU files, ∃ m k r2,
      loadRules numCPU (some files) = some m ∧ r.Name = some k ∧ (k, r2) ∈ m) ∧
    ruleCount (loadRules numCPU (some files)) =
      (ruleNames (validRules numCPU files)).toFinset.card ∧
    ((ruleNames (validRules numCPU files)).Nodup →
      ruleCount (loadRules numCPU (some files)) = (validRules numCPU files).length ∧
      ∀ r ∈ validRules numCPU files, ∃ m k,
        loadRules numCPU (some files) = some m ∧ r.Name = some k ∧ (k, r) ∈ m) := by
  have hinv : LoadInv numCPU files (files.foldl (loadRulesStep numCPU) []) := by
    have := foldl_inv numCPU files [] [] ⟨by simp [Rules.keys], by simp⟩
    simpa using this
  have hk := foldl_keys numCPU files []
  have hcount : ruleCount (loadRules numCPU (some files)) =
      (ruleNames (validRules numCPU files)).toFinset.card := by
    rw [ruleCount_loadRules]
    have h1 : (files.foldl (loadRulesStep numCPU) []).length =
        (files.foldl (loadRulesStep numCPU) []).keys.length := by simp [Rules.keys]
    rw [h1, ← List.toFinset_card_of_nodup hinv.1]
    congr 1
    ext k
    simp only [List.mem_toFinset]
    rw [hk]
    simp [Rules.keys]
  have hlen : (ruleNames (validRules numCPU files)).length = (validRules numCPU files).length := by
    have hall : ∀ r ∈ validRules numCPU files, ∃ n, r.Name = some n := by
      intro r hr
      obtain ⟨e, -, he⟩ := List.mem_filterMap.mp hr
      exact validRule_name numCPU e r he
    generalize validRules numCPU files = l at hall
    induction l with
    | nil => rfl
    | cons r rs ih =>
      obtain ⟨n, hn⟩ := hall r (by simp)
      simp only [ruleNames, List.filterMap_cons, hn, List.length_cons]
      rw [← ih (fun r2 h2 => hall r2 (by simp [h2]))]
      rfl
  have hkey : ∀ r ∈ validRules numCPU files, ∃ m k r2,
      loadRules numCPU (some files) = some m ∧ r.Name = some k ∧ (k, r2) ∈ m := by
    intro r hr
    obtain ⟨e, -, he⟩ := List.mem_filterMap.mp hr
    obtain ⟨n, hn⟩ := validRule_name numCPU e r he
    cases hl : loadRules numCPU (some files) with
    | none =>
      rw [(loadRules_eq_none_iff numCPU files).mp hl] at hr
      simp at hr
    | some m =>
      have hmem : n ∈ m.keys := by
        rw [(loadRules_some numCPU files m hl).1, hk]
        exact Or.inr (List.mem_filterMap.mpr ⟨r, hr, hn⟩)
      obtain ⟨⟨k, r2⟩, hkr, hfst⟩ := List.mem_map.mp hmem
      simp only at hfst
      subst hfst
      exact ⟨m, k, r2, rfl, hn, hkr⟩
  refine ⟨?_, hkey, hcount, ?_⟩
  · intro m hm
    rw [(loadRules_some numCPU files m hm).1]
    exact hinv
  · intro hnd
    refine ⟨by rw [hcount, List.toFinset_card_of_nodup hnd, hlen], ?_⟩
    intro r hr
    obtain ⟨m, k, r2, hm, hn, hkr⟩ := hkey r hr
    have h2 : r2.Name = some k ∧ r2 ∈ validRules numCPU files := by
      have := hinv.2 k r2
      rw [← (loadRules_some numCPU files m hm).1] at this
      exact this hkr
    have heq := eq_of_nodup_names _ hnd r r2 hr h2.2 k hn h2.1
    exact ⟨m, k, hm, hn, heq ▸ hkr⟩

/-! ## Reloading -/

theorem step_rules_ne_nil (d d2 : Daemon) (i : Input) (hd : d.rules ≠ [])
    (h : step d i = .ok d2) : d2.rules ≠ [] := by
  cases i with
  | text t =>
    simp only [step] at h
    split at h
    · simp at h
    · injection h with h; rw [← h]; exact hd
  | scanErr => simp [step] at h
  | reload dir =>
    simp only [step] at h
    cases hl : loadRules d.numCPU dir with
    | none =>
      simp only [hl] at h
      injection h with h; rw [← h]; exact hd
    | some rs =>
      simp only [hl] at h
      injection h with h
      rw [← h]
      intro he
      simp only at he
      rw [he] at hl
      exact loadRules_ne_empty d.numCPU dir hl
  | reapply proc =>
    simp only [step] at h
    split at h
    · simp at h
    · injection h with h; rw [← h]; exact hd
  | wait => simp [step] at h

theorem reachable_rules_ne_nil (d : Daemon) (hd : Reachable d) : d.rules ≠ [] := by
  induction hd with
  | start numCPU delay applyFlag dir proc d h =>
    simp only [startup] at h
    cases hl : loadRules numCPU dir with
    | none => simp [hl] at h
    | some rs =>
      simp only [hl] at h
      split at h
      · simp at h
      · injection h with h
        rw [← h]
        intro he
        simp only at he
        rw [he] at hl
        exact loadRules_ne_empty numCPU dir hl
  | next d d2 i _ h ih => exact step_rules_ne_nil d d2 i ih h

/-- C3: a reload that finds nothing valid (the directory is unreadable, or
none of its rule files is accepted) leaves the daemon as it was; loadRules
never returns an empty non-nil set; hence in every state reached from a
successful start by turns of the control loop the active rule set is
non-empty. -/
theorem reload_keeps_rules (d : Daemon) (dir : Option (List DirEntry)) :
    ((dir = none ∨ ∃ files, dir = some files ∧ ∀ e ∈ files,
        filepathExt e.name = ascii ".rules" → accepted (loadRule d.numCPU e.file) = false) →
      step d (.reload dir) = .ok d) ∧
    loadRules d.numCPU dir ≠ some [] ∧
    (Reachable d → d.rules ≠ [] ∧
      ∀ i d2, step d i = .ok d2 → Reachable d2 ∧ d2.rules ≠ []) := by
  refine ⟨?_, loadRules_ne_empty d.numCPU dir, ?_⟩
  · intro h
    have hnone : loadRules d.numCPU dir = none := by
      rcases h with h | ⟨files, hf, hall⟩
      · rw [h]; rfl
      · rw [hf, loadRules_eq_none_iff]
        apply List.filterMap_eq_nil_iff.mpr
        intro e he
        unfold validRule
        split_ifs with hx
        · have := hall e he hx
          cases hl : loadRule d.numCPU e.file with
          | error err => rfl
          | ok r => rw [hl] at this; simp [accepted] at this
        · rfl
    simp [step, hnone]
  · intro hd
    refine ⟨reachable_rules_ne_nil d hd, fun i d2 h => ?_⟩
    have hr : Reachable d2 := Reachable.next d d2 i hd h
    exact ⟨hr, reachable_rules_ne_nil d2 hr⟩

/-- A daemon started from one valid rule file, reloading a directory whose
only rule file is invalid. -/
theorem reload_keeps_rules_witness :
    Reachable stressDaemon ∧
    step stressDaemon (.reload (some badDir)) = .ok stressDaemon ∧
    stressDaemon.rules ≠ [] :=
  have hr : Reachable stressDaemon :=
    Reachable.start 4 1 false (some [⟨ascii "stress.rules", some stressRule⟩]) none
      stressDaemon (by decide)
  ⟨hr,
   (reload_keeps_rules stressDaemon (some badDir)).1
     (Or.inr ⟨badDir, rfl, by decide⟩),
   ((reload_keeps_rules stressDaemon (some badDir)).2.2 hr).1⟩

/-! ## Failing thread enumeration -/

/-- C8: with nice set and the task directory unreadable, Rule.apply logs the
read error and then panics on `pids[0] = pid`: it does not return normally,
and renice, ionice and chrt are never run. -/
theorem apply_panics_on_vanished_pid :
    accepted (loadRule 4 (some fullRule)) = true ∧
    (fullRule.apply (ascii "stress") (ascii "100") goneEnv).panic =
      some Panic.indexOutOfRange ∧
    (fullRule.apply (ascii "stress") (ascii "100") goneEnv).trace =
      [Event.applyCall fullRule (ascii "stress") (ascii "100"),
       Event.exec (ascii "taskset")
         [ascii "-a", ascii "-c", ascii "0-1", ascii "-p", ascii "100"],
       Event.logReadDir (ascii "/proc/100/task")] ∧
    ((fullRule.apply (ascii "stress") (ascii "100") goneEnv).trace.filter
      (isExecOf (ascii "chrt"))) = [] ∧
    ((fullRule.apply (ascii "stress") (ascii "100") (calmEnv (ascii "100"))).trace.filter
      (isExecOf (ascii "chrt"))) =
      [Event.exec (ascii "chrt")
        [ascii "-a", ascii "--fifo", ascii "--pid", ascii "1", ascii "100"]] := by
  decide

/-! ## The bulk scan -/

/-- C4: in a snapshot of two processes that both match, a failure of the
thread enumeration in the first invocation panics and ends the scan: one
invocation is made, not two, and the second process is skipped. -/
theorem scan_aborts_on_vanished_pid :
    scanMatches stressDaemon.rules twoStress =
      [(stressRule, ascii "stress", ascii "100"), (stressRule, ascii "stress", ascii "200")] ∧
    (stressDaemon.rules.apply (some twoStress)).panic = some Panic.indexOutOfRange ∧
    ((stressDaemon.rules.apply (some twoStress)).trace.filter isApplyCall) =
      [Event.applyCall stressRule (ascii "stress") (ascii "100")] ∧
    step stressDaemon (.reapply (some twoStress)) = .error (.panic .indexOutOfRange) := by
  decide

/-- When the scan does not panic, it makes one invocation per matching
process, in order, with the rule stored under the name of the process. -/
theorem scanLoop_calls (rs : Rules) (files : List ProcEntry)
    (h : (scanLoop rs files).panic = none) :
    (scanLoop rs files).trace.filter isApplyCall =
      (scanMatches rs files).map (fun m => Event.applyCall m.1 m.2.1 m.2.2) := by
  induction files with
  | nil => simp [scanLoop, scanMatches]
  | cons file rest ih =>
    simp only [scanLoop, scanMatches, List.filterMap_cons] at h ⊢
    split_ifs at h ⊢ with hd
    · exact ih h
    · cases hc : getComm file.comm with
      | error p => simp [hc] at h
      | ok o =>
        cases o with
        | none =>
          simp only [hc] at h ⊢
          exact ih h
        | some comm =>
          simp only [hc] at h ⊢
          cases hm : rs.match comm with
          | none =>
            simp only [hm] at h ⊢
            exact ih h
          | some rule =>
            simp only [hm] at h ⊢
            cases hp : (rule.apply comm file.name file.env).panic with
            | some p => simp [hp] at h
            | none =>
              simp only [hp, Option.isSome_none, Bool.false_eq_true, if_false] at h ⊢
              obtain ⟨ext, htr, hext⟩ := apply_trace rule comm file.name file.env
              rw [htr, List.cons_append, List.filter_cons, List.filter_append]
              have hnil : ext.filter isApplyCall = [] :=
                List.filter_eq_nil_iff.mpr (fun e he => by simp [hext e he])
              simp only [isApplyCall, if_true, hnil, List.nil_append, List.map_cons]
              congr 1
              exact ih h

/-! ## Malformed notification lines -/

/-- C10: a line with a single field makes parseText index `fields[1]` out
of range; the control loop ends in that panic, not in the fatal exit of the
stream-error case. -/
theorem parseText_panics_on_short_line :
    stringsFields (ascii "1234") = [ascii "1234"] ∧
    parseText (ascii "1234") = .error Panic.indexOutOfRange ∧
    parseText [] = .error Panic.indexOutOfRange ∧
    step stressDaemon (.text (ascii "1234")) = .error (.panic .indexOutOfRange) ∧
    step stressDaemon .scanErr = .error .fatal := by
  decide

end Nicety
